import Mathlib

/-!
# Verification of the `SegTree` segment tree (`src/tree.rs`)

Shallow embedding of the Rust segment tree from `algorithm-rs`:

* The backing store `container : Vec<T>` is modelled as a `List T`; every
  indexing operation of the Rust code (`self.container[i]`, `vec[i]`) is
  modelled by a *checked* access returning `Option`, so that an
  out-of-bounds access — which panics in (debug) Rust — is `none` in the
  model.  Consequently a `some` result certifies that no out-of-bounds
  access happened during the whole computation.
* The recursive helpers `apply_vec`, `_get`, `_set` use general recursion
  in Rust; they are embedded with an explicit `fuel` parameter (`none`
  when the fuel runs out).  The public wrappers pass `t.len` fuel, and we
  prove this is always sufficient under the documented preconditions.
* The `debug_assert!` contract checks of the public API (`new`, `get`,
  `set`, and the emptiness check of `from_vec`) are modelled as guards
  returning `none` (debug-build semantics, which is where the spec's
  "failure modes" live).
* Machine integers (`usize`) are modelled by `Nat`; the bit operations
  `<< 1`, `| 1`, `>> 1`, `<< 2`, `>> 2` of the source are kept as the
  corresponding `Nat` operations `<<<`, `|||`, `>>>`.
-/

/-- The segment tree structure: a flat backing store (`container`) holding a
1-indexed implicit binary tree, and the combining operation (`func`). -/
structure SegTree (T : Type) where
  container : List T
  func : T → T → T

namespace SegTree

variable {T : Type}

/-- Checked read `self.container[i]`: `none` models the Rust panic on an
out-of-bounds index. -/
def getSlot (t : SegTree T) (i : Nat) : Option T :=
  t.container.get? i

/-- Checked write `self.container[i] = v`: `none` models the Rust panic on an
out-of-bounds index. -/
def setSlot (t : SegTree T) (i : Nat) (v : T) : Option (SegTree T) :=
  if i < t.container.length then some { t with container := t.container.set i v } else none

/-- `SegTree::new` after its `debug_assert!(size > 0)`: allocates
`vec![default; size << 2]`. -/
def new (size : Nat) (dflt : T) (f : T → T → T) : SegTree T :=
  { container := List.replicate (size <<< 2) dflt, func := f }

/-- `SegTree::new` including the `debug_assert!(size > 0, "SegTree cannot be empty")`
contract check (debug-build semantics: `none` = assertion failure). -/
def new? (size : Nat) (dflt : T) (f : T → T → T) : Option (SegTree T) :=
  if 0 < size then some (new size dflt f) else none

/-- `SegTree::len`: `self.container.len() >> 2`. -/
def len (t : SegTree T) : Nat :=
  t.container.length >>> 2

/-- `SegTree::apply_vec(node, left, right, vec)` with explicit fuel. -/
def apply_vec (t : SegTree T) (fuel node left right : Nat) (vec : List T) :
    Option (SegTree T) :=
  match fuel with
  | 0 => none
  | fuel + 1 =>
    if left + 1 = right then do
      let v ← vec.get? left          -- vec[left]
      t.setSlot node v
    else do
      let mid := (left + right) >>> 1
      let t1 ← t.apply_vec fuel (node <<< 1) left mid vec
      let t2 ← t1.apply_vec fuel ((node <<< 1) + 1) mid right vec
      let a ← t2.getSlot (node <<< 1)
      let b ← t2.getSlot ((node <<< 1) + 1)
      t2.setSlot node (t2.func a b)

/-- `SegTree::from_vec`: the `debug_assert!(vec.len() > 0)` (and the `vec[0]`
access) make the empty case fail; otherwise `new` followed by
`apply_vec(1, 0, tree.len(), vec)`. -/
def from_vec (vec : List T) (f : T → T → T) : Option (SegTree T) :=
  match vec with
  | [] => none
  | v0 :: _ =>
    let t := new vec.length v0 f
    t.apply_vec vec.length 1 0 t.len vec

/-- `SegTree::_get(node, left, right, start, end)` with explicit fuel
(the Rust parameter `end` is called `stop` here, as `end` is a Lean keyword). -/
def _get (t : SegTree T) (fuel node left right start stop : Nat) : Option T :=
  match fuel with
  | 0 => none
  | fuel + 1 =>
    if start ≤ left ∧ right ≤ stop then
      t.getSlot node
    else
      let mid := (left + right) >>> 1
      if stop ≤ mid then
        t._get fuel (node <<< 1) left mid start stop
      else if mid ≤ start then
        t._get fuel ((node <<< 1) ||| 1) mid right start stop
      else do
        let a ← t._get fuel (node <<< 1) left mid start stop
        let b ← t._get fuel ((node <<< 1) ||| 1) mid right start stop
        some (t.func a b)

/-- `SegTree::get` with its two `debug_assert!`s (`start < end`,
`end <= self.len()`) as guards, calling `_get(1, 0, self.len(), start, end)`. -/
def get (t : SegTree T) (start stop : Nat) : Option T :=
  if start < stop ∧ stop ≤ t.len then t._get t.len 1 0 t.len start stop else none

/-- `SegTree::_set(node, left, right, index, value)` with explicit fuel. -/
def _set (t : SegTree T) (fuel node left right index : Nat) (value : T) :
    Option (SegTree T) :=
  match fuel with
  | 0 => none
  | fuel + 1 =>
    if left + 1 = right then
      t.setSlot node value
    else do
      let mid := (left + right) >>> 1
      let t1 ←
        if index < mid then t._set fuel (node <<< 1) left mid index value
        else t._set fuel ((node <<< 1) ||| 1) mid right index value
      let a ← t1.getSlot (node <<< 1)
      let b ← t1.getSlot ((node <<< 1) ||| 1)
      t1.setSlot node (t1.func a b)

/-- `SegTree::set` with its `debug_assert!(index < self.len())` as a guard,
calling `_set(1, 0, self.len(), index, value)`. -/
def set (t : SegTree T) (index : Nat) (value : T) : Option (SegTree T) :=
  if index < t.len then t._set t.len 1 0 t.len index value else none

/-- Instrumented copy of `_get` that additionally counts how many times the
combining operation `func` is invoked (used to settle the "no spurious
combine calls" claim). -/
def _getCnt (t : SegTree T) (fuel node left right start stop : Nat) : Option (T × Nat) :=
  match fuel with
  | 0 => none
  | fuel + 1 =>
    if start ≤ left ∧ right ≤ stop then do
      let v ← t.getSlot node
      some (v, 0)
    else
      let mid := (left + right) >>> 1
      if stop ≤ mid then
        t._getCnt fuel (node <<< 1) left mid start stop
      else if mid ≤ start then
        t._getCnt fuel ((node <<< 1) ||| 1) mid right start stop
      else do
        let a ← t._getCnt fuel (node <<< 1) left mid start stop
        let b ← t._getCnt fuel ((node <<< 1) ||| 1) mid right start stop
        some (t.func a.1 b.1, a.2 + b.2 + 1)

/-- Instrumented copy of `get` (same guards), counting combine invocations. -/
def getCnt (t : SegTree T) (start stop : Nat) : Option (T × Nat) :=
  if start < stop ∧ stop ≤ t.len then t._getCnt t.len 1 0 t.len start stop else none

/-- The slot of the backing store in which the logical element `index` of the
subtree rooted at `node` (covering `[left, right)`) is stored; follows the
descent of `_set`/`_get`. -/
def leafIdx (fuel node left right index : Nat) : Nat :=
  match fuel with
  | 0 => node
  | fuel + 1 =>
    if left + 1 = right then node
    else
      let mid := (left + right) >>> 1
      if index < mid then leafIdx fuel (node <<< 1) left mid index
      else leafIdx fuel ((node <<< 1) ||| 1) mid right index


/-- Left-to-right fold of the logical elements `g l, g (l+1), …, g (r-1)` under
`f`, with no identity element (meaningful for `l < r`; equals `g l` when
`r ≤ l + 1`).  This is the naive O(N) reference fold of the spec. -/
def foldRange (f : T → T → T) (g : Nat → T) (l r : Nat) : T :=
  ((List.range' (l + 1) (r - (l + 1))).map g).foldl f (g l)

/-- `Desc node m`: slot `m` lies in the subtree rooted at slot `node` of the
1-indexed implicit binary tree, i.e. `node` is reached from `m` by repeated
halving. -/
def Desc (node m : Nat) : Prop :=
  ∃ k, m / 2 ^ k = node

/-- Invariant tying a node of the recursion to the store length `L`: `p`
tracks `2 ^ depth`; the node index lies in `[p, 2p)` and the interval `[l, r)`
is small enough (relative to the depth) that the node and its whole subtree
stay below `L`.  The root of a tree of logical size `n ≥ 1` satisfies it with
`node = p = 1` whenever `4 * n ≤ L`. -/
def NodeOk (L node l r p : Nat) : Prop :=
  0 < p ∧ p ≤ node ∧ node < 2 * p ∧ l < r ∧ 4 * ((r - l - 1) * p) < L ∧ node < L

/-- Node/interval pairs reachable from `(node, l, r)` by the descent used by
`apply_vec`, `_get` and `_set`: children of a node `m` over `[a, b)` with
`a + 1 < b` sit at `2m` over `[a, (a+b)/2)` and `2m+1` over `[(a+b)/2, b)`. -/
inductive ReachAt : Nat → Nat → Nat → Nat → Nat → Nat → Prop
  | refl (node l r : Nat) : ReachAt node l r node l r
  | left {node l r m a b : Nat} (h : ReachAt node l r m a b) (hab : a + 1 < b) :
      ReachAt node l r (2 * m) a ((a + b) / 2)
  | right {node l r m a b : Nat} (h : ReachAt node l r m a b) (hab : a + 1 < b) :
      ReachAt node l r (2 * m + 1) ((a + b) / 2) b

/-- Local shape constraint of slot `m` covering `[a, b)`: a leaf slot stores
the logical element `g a`; an internal slot stores `func` of its two child
slots (`d` is an arbitrary junk default for the total read `List.getD`). -/
def LocalEq (f : T → T → T) (c : List T) (d : T) (g : Nat → T) (m a b : Nat) : Prop :=
  (a + 1 = b → c.getD m d = g a) ∧
  (a + 1 < b → c.getD m d = f (c.getD (2 * m) d) (c.getD (2 * m + 1) d))

/-- The tree-shape invariant: every node/interval reachable from
`(node, l, r)` satisfies its local constraint w.r.t. the logical contents
`g`. -/
def Good (f : T → T → T) (c : List T) (d : T) (g : Nat → T) (node l r : Nat) : Prop :=
  ∀ m a b, ReachAt node l r m a b → LocalEq f c d g m a b

/-- Trees obtainable through the public API together with their logical
contents `g` and logical size `n`: construction by `new` (with the extra
hypothesis `f dflt dflt = dflt`, without which `new` does **not** establish
the internal-node invariant — see the C1/C2 counterexamples), construction by
`from_vec`, and any sequence of in-bounds `set` operations.  `d` is the junk
default used to express logical contents via `List.getD`. -/
inductive Builds (d : T) : (T → T → T) → SegTree T → (Nat → T) → Nat → Prop
  | protected new (size : Nat) (dflt : T) (f : T → T → T) (hsize : 0 < size)
      (hd : f dflt dflt = dflt) :
      Builds d f (new size dflt f) (fun _ => dflt) size
  | protected from_vec (vec : List T) (f : T → T → T) (t : SegTree T)
      (hvec : vec ≠ []) (h : from_vec vec f = some t) :
      Builds d f t (fun j => vec.getD j d) vec.length
  | protected set (f : T → T → T) (t t' : SegTree T) (g : Nat → T) (n i : Nat)
      (v : T) (hb : Builds d f t g n) (hi : i < n) (h : t.set i v = some t') :
      Builds d f t' (Function.update g i v) n

end SegTree

/-! ## Sanity checks: the unit tests of `src/tree.rs` hold in the model. -/

theorem sanity_from_vec_test :
    (SegTree.from_vec [1, 3, 2, 4] (fun a b => a + b)).bind (fun t => t.get 1 3) =
      some 5 := by decide

theorem sanity_length_test :
    (SegTree.new 10 0 (fun a b => a + b)).len = 10 := by decide

theorem sanity_single_index_test :
    ((SegTree.new 10 0 (fun a b => a + b)).set 1 2).bind (fun t => t.get 1 2) =
      some 2 := by decide

theorem sanity_range_index_test :
    (((SegTree.new 10 0 (fun a b => a + b)).set 1 2).bind
        (fun t => t.set 3 4)).bind (fun t => t.get 1 4) = some 6 := by decide

theorem sanity_change_test :
    (((SegTree.new 10 0 (fun a b => a + b)).set 3 4).bind
        (fun t => t.set 3 2)).bind (fun t => t.get 3 4) = some 2 := by decide

/-! ## Arithmetic and list bridges -/

namespace SegTree

theorem shiftl_one (n : Nat) : n <<< 1 = 2 * n := by
  rw [Nat.shiftLeft_eq]; ring

theorem shiftl_one_or (n : Nat) : n <<< 1 ||| 1 = 2 * n + 1 := by
  have h : 2 ^ 1 * n + 1 = 2 ^ 1 * n ||| 1 :=
    Nat.mul_add_lt_is_or (by norm_num) n
  rw [Nat.shiftLeft_eq]
  calc n * 2 ^ 1 ||| 1 = 2 ^ 1 * n ||| 1 := by rw [Nat.mul_comm]
    _ = 2 ^ 1 * n + 1 := h.symm
    _ = 2 * n + 1 := by norm_num

theorem shiftr_one (n : Nat) : n >>> 1 = n / 2 := by
  simp [Nat.shiftRight_eq_div_pow]

theorem shiftr_two (n : Nat) : n >>> 2 = n / 4 := by
  simp [Nat.shiftRight_eq_div_pow]

theorem shiftl_two (n : Nat) : n <<< 2 = 4 * n := by
  rw [Nat.shiftLeft_eq]; ring

theorem len_eq (t : SegTree T) : t.len = t.container.length / 4 := by
  simp [len, shiftr_two]

theorem container_length_new (size : Nat) (dflt : T) (f : T → T → T) :
    (new size dflt f).container.length = 4 * size := by
  simp [new, shiftl_two]

theorem len_new (size : Nat) (dflt : T) (f : T → T → T) :
    (new size dflt f).len = size := by
  simp [len_eq, container_length_new]

theorem func_new (size : Nat) (dflt : T) (f : T → T → T) :
    (new size dflt f).func = f := rfl

theorem get?_eq_some_getD (l : List T) (n : Nat) (d : T) (h : n < l.length) :
    l.get? n = some (l.getD n d) := by
  simp [List.getD_eq_getD_get?, List.get?_eq_getElem?, List.getElem?_eq_getElem h]

theorem getD_set_ne (l : List T) (n m : Nat) (v d : T) (h : n ≠ m) :
    (l.set n v).getD m d = l.getD m d := by
  simp [List.getD_eq_getD_get?, List.get?_eq_getElem?, List.getElem?_set_ne h]

theorem getD_set_self (l : List T) (n : Nat) (v d : T) (h : n < l.length) :
    (l.set n v).getD n d = v := by
  simp [List.getD_eq_getD_get?, List.get?_eq_getElem?, List.getElem?_set_self', h,
    List.getElem?_eq_getElem h]

theorem getD_replicate (n m : Nat) (d e : T) (h : m < n) :
    (List.replicate n d).getD m e = d := by
  have h1 : (List.replicate n d).get? m = some ((List.replicate n d).getD m e) :=
    get?_eq_some_getD _ m e (by simpa using h)
  have h2 : (List.replicate n d).get? m = some d := by
    rw [List.get?_eq_getElem?, List.getElem?_replicate]
    simp [h]
  rw [h1] at h2
  exact Option.some.inj h2

theorem get?_congr_getD (l l' : List T) (n : Nat) (d : T)
    (hlen : l'.length = l.length) (h : l'.getD n d = l.getD n d) :
    l'.get? n = l.get? n := by
  by_cases hn : n < l.length
  · rw [get?_eq_some_getD l n d hn, get?_eq_some_getD l' n d (by omega), h]
  · rw [List.get?_eq_none.mpr (by omega), List.get?_eq_none.mpr (by omega)]

/-! ## The reference fold: left-to-right combine of `g start … g (stop-1)` -/


theorem foldRange_one (f : T → T → T) (g : Nat → T) (l : Nat) :
    foldRange f g l (l + 1) = g l := by
  simp [foldRange]

theorem foldl_assoc_of_assoc (f : T → T → T)
    (hassoc : ∀ a b c, f (f a b) c = f a (f b c)) (a b : T) :
    ∀ xs : List T, List.foldl f (f a b) xs = f a (List.foldl f b xs)
  | [] => rfl
  | x :: xs => by
    simp only [List.foldl_cons]
    rw [hassoc, foldl_assoc_of_assoc f hassoc a (f b x) xs]

theorem foldRange_split (f : T → T → T)
    (hassoc : ∀ a b c, f (f a b) c = f a (f b c))
    (g : Nat → T) {l m r : Nat} (hlm : l < m) (hmr : m < r) :
    foldRange f g l r = f (foldRange f g l m) (foldRange f g m r) := by
  have hsplit : List.range' (l + 1) (r - (l + 1)) =
      List.range' (l + 1) (m - (l + 1)) ++ List.range' m (r - m) := by
    have h := List.range'_append_1 (l + 1) (m - (l + 1)) (r - m)
    rw [show l + 1 + (m - (l + 1)) = m by omega] at h
    rw [h]
    congr 1
    omega
  have hcons : List.range' m (r - m) = m :: List.range' (m + 1) (r - (m + 1)) := by
    rw [show r - m = (r - (m + 1)) + 1 by omega, List.range'_succ]
  unfold foldRange
  rw [hsplit, List.map_append, List.foldl_append, hcons]
  simp only [List.map_cons, List.foldl_cons]
  rw [foldl_assoc_of_assoc f hassoc]

theorem foldRange_congr (f : T → T → T) (g g' : Nat → T) {l r : Nat}
    (h : ∀ j, l ≤ j → j < r → g j = g' j) (hlr : l < r) :
    foldRange f g l r = foldRange f g' l r := by
  unfold foldRange
  rw [h l le_rfl hlr, List.map_congr_left]
  intro a ha
  have := List.mem_range'_1.mp ha
  exact h a (by omega) (by omega)

end SegTree

/-! ## Subtree slots and node-index bounds -/

namespace SegTree


theorem desc_self (node : Nat) : Desc node node :=
  ⟨0, by simp⟩

theorem desc_le {node m : Nat} (h : Desc node m) : node ≤ m := by
  obtain ⟨k, hk⟩ := h
  rw [← hk]
  exact Nat.div_le_self m (2 ^ k)

theorem desc_of_desc_left {node m : Nat} (h : Desc (2 * node) m) : Desc node m := by
  obtain ⟨k, hk⟩ := h
  refine ⟨k + 1, ?_⟩
  rw [pow_succ, ← Nat.div_div_eq_div_mul, hk]
  omega

theorem desc_of_desc_right {node m : Nat} (h : Desc (2 * node + 1) m) : Desc node m := by
  obtain ⟨k, hk⟩ := h
  refine ⟨k + 1, ?_⟩
  rw [pow_succ, ← Nat.div_div_eq_div_mul, hk]
  omega

theorem desc_sibling_disjoint {node m : Nat} (hnode : 0 < node)
    (h1 : Desc (2 * node) m) (h2 : Desc (2 * node + 1) m) : False := by
  obtain ⟨k, hk⟩ := h1
  obtain ⟨j, hj⟩ := h2
  rcases Nat.lt_trichotomy k j with h | h | h
  · have e : m / 2 ^ j = m / 2 ^ k / 2 ^ (j - k) := by
      rw [Nat.div_div_eq_div_mul, ← pow_add]
      congr 2
      omega
    rw [hk] at e
    have h2le : (2 : Nat) ≤ 2 ^ (j - k) := by
      calc (2 : Nat) = 2 ^ 1 := by norm_num
        _ ≤ 2 ^ (j - k) := Nat.pow_le_pow_right (by norm_num) (by omega)
    have hdiv : 2 * node / 2 ^ (j - k) ≤ 2 * node / 2 :=
      Nat.div_le_div_left h2le (by norm_num)
    omega
  · rw [h] at hk
    omega
  · have e : m / 2 ^ k = m / 2 ^ j / 2 ^ (k - j) := by
      rw [Nat.div_div_eq_div_mul, ← pow_add]
      congr 2
      omega
    rw [hj] at e
    have h2le : (2 : Nat) ≤ 2 ^ (k - j) := by
      calc (2 : Nat) = 2 ^ 1 := by norm_num
        _ ≤ 2 ^ (k - j) := Nat.pow_le_pow_right (by norm_num) (by omega)
    have hdiv : (2 * node + 1) / 2 ^ (k - j) ≤ (2 * node + 1) / 2 :=
      Nat.div_le_div_left h2le (by norm_num)
    omega

theorem not_desc_left_self {node : Nat} (hnode : 0 < node) : ¬ Desc (2 * node) node := by
  intro h
  have := desc_le h
  omega

theorem not_desc_right_self {node : Nat} (hnode : 0 < node) : ¬ Desc (2 * node + 1) node := by
  intro h
  have := desc_le h
  omega


theorem nodeOk_root {L n : Nat} (hn : 0 < n) (hL : 4 * n ≤ L) : NodeOk L 1 0 n 1 := by
  refine ⟨by omega, by omega, by omega, hn, ?_, by omega⟩
  have : (n - 0 - 1) * 1 = n - 1 := by omega
  omega

theorem nodeOk_left {L node l r p : Nat} (h : NodeOk L node l r p) (hlr : l + 1 < r) :
    NodeOk L (2 * node) l ((l + r) / 2) (2 * p) := by
  obtain ⟨hp, hpn, hn2p, _, hsz, hnL⟩ := h
  have hp_le : p ≤ (r - l - 1) * p := Nat.le_mul_of_pos_left p (by omega)
  have key : ((l + r) / 2 - l - 1) * (2 * p) ≤ (r - l - 2) * p := by
    have h2 : ((l + r) / 2 - l - 1) * 2 ≤ r - l - 2 := by omega
    calc ((l + r) / 2 - l - 1) * (2 * p) = ((l + r) / 2 - l - 1) * 2 * p := by ring
      _ ≤ (r - l - 2) * p := Nat.mul_le_mul_right p h2
  have mono : (r - l - 2) * p ≤ (r - l - 1) * p := Nat.mul_le_mul_right p (by omega)
  refine ⟨by omega, by omega, by omega, by omega, by omega, by omega⟩

theorem nodeOk_right {L node l r p : Nat} (h : NodeOk L node l r p) (hlr : l + 1 < r) :
    NodeOk L (2 * node + 1) ((l + r) / 2) r (2 * p) := by
  obtain ⟨hp, hpn, hn2p, _, hsz, hnL⟩ := h
  have hp_le : p ≤ (r - l - 1) * p := Nat.le_mul_of_pos_left p (by omega)
  have key : (r - (l + r) / 2 - 1) * (2 * p) ≤ (r - l - 1) * p := by
    have h2 : (r - (l + r) / 2 - 1) * 2 ≤ r - l - 1 := by omega
    calc (r - (l + r) / 2 - 1) * (2 * p) = (r - (l + r) / 2 - 1) * 2 * p := by ring
      _ ≤ (r - l - 1) * p := Nat.mul_le_mul_right p h2
  refine ⟨by omega, by omega, by omega, by omega, by omega, by omega⟩

end SegTree

/-! ## Reachable nodes and the tree-shape invariant -/

namespace SegTree


theorem reachAt_trans {n1 l1 r1 n2 l2 r2 n3 l3 r3 : Nat}
    (h1 : ReachAt n1 l1 r1 n2 l2 r2) (h2 : ReachAt n2 l2 r2 n3 l3 r3) :
    ReachAt n1 l1 r1 n3 l3 r3 := by
  induction h2 with
  | refl => exact h1
  | left _ hab ih => exact ReachAt.left ih hab
  | right _ hab ih => exact ReachAt.right ih hab

theorem desc_child_left {node m : Nat} (h : Desc node m) : Desc node (2 * m) := by
  obtain ⟨k, hk⟩ := h
  refine ⟨k + 1, ?_⟩
  rw [pow_succ, Nat.mul_comm (2 ^ k) 2, ← Nat.div_div_eq_div_mul]
  rw [show 2 * m / 2 = m by omega]
  exact hk

theorem desc_child_right {node m : Nat} (h : Desc node m) : Desc node (2 * m + 1) := by
  obtain ⟨k, hk⟩ := h
  refine ⟨k + 1, ?_⟩
  rw [pow_succ, Nat.mul_comm (2 ^ k) 2, ← Nat.div_div_eq_div_mul]
  rw [show (2 * m + 1) / 2 = m by omega]
  exact hk

theorem reachAt_desc {node l r m a b : Nat} (h : ReachAt node l r m a b) :
    Desc node m := by
  induction h with
  | refl => exact desc_self node
  | left _ _ ih => exact desc_child_left ih
  | right _ _ ih => exact desc_child_right ih

theorem reachAt_bounds {node l r m a b : Nat} (h : ReachAt node l r m a b)
    (hlr : l < r) : l ≤ a ∧ b ≤ r ∧ a < b := by
  induction h with
  | refl => exact ⟨le_rfl, le_rfl, hlr⟩
  | left _ hab ih => exact ⟨ih.1, by omega, by omega⟩
  | right _ hab ih => exact ⟨by omega, ih.2.1, by omega⟩

theorem reachAt_nodeOk {L node l r m a b p : Nat} (h : ReachAt node l r m a b)
    (hok : NodeOk L node l r p) : ∃ q, NodeOk L m a b q := by
  induction h with
  | refl => exact ⟨p, hok⟩
  | left _ hab ih =>
    obtain ⟨q, hq⟩ := ih
    exact ⟨2 * q, nodeOk_left hq hab⟩
  | right _ hab ih =>
    obtain ⟨q, hq⟩ := ih
    exact ⟨2 * q, nodeOk_right hq hab⟩

theorem reachAt_inv {node l r m a b : Nat} (h : ReachAt node l r m a b) :
    (m = node ∧ a = l ∧ b = r) ∨
      (l + 1 < r ∧
        (ReachAt (2 * node) l ((l + r) / 2) m a b ∨
          ReachAt (2 * node + 1) ((l + r) / 2) r m a b)) := by
  induction h with
  | refl => exact Or.inl ⟨rfl, rfl, rfl⟩
  | left h hab ih =>
    rcases ih with ⟨hm, ha, hb⟩ | ⟨hlr, hside⟩
    · subst hm; subst ha; subst hb
      exact Or.inr ⟨hab, Or.inl (ReachAt.refl _ _ _)⟩
    · rcases hside with hL | hR
      · exact Or.inr ⟨hlr, Or.inl (ReachAt.left hL hab)⟩
      · exact Or.inr ⟨hlr, Or.inr (ReachAt.left hR hab)⟩
  | right h hab ih =>
    rcases ih with ⟨hm, ha, hb⟩ | ⟨hlr, hside⟩
    · subst hm; subst ha; subst hb
      exact Or.inr ⟨hab, Or.inr (ReachAt.refl _ _ _)⟩
    · rcases hside with hL | hR
      · exact Or.inr ⟨hlr, Or.inl (ReachAt.right hL hab)⟩
      · exact Or.inr ⟨hlr, Or.inr (ReachAt.right hR hab)⟩



theorem good_child_left {f : T → T → T} {c : List T} {d : T} {g : Nat → T}
    {node l r : Nat} (h : Good f c d g node l r) (hlr : l + 1 < r) :
    Good f c d g (2 * node) l ((l + r) / 2) := fun m a b hr =>
  h m a b (reachAt_trans (ReachAt.left (ReachAt.refl node l r) hlr) hr)

theorem good_child_right {f : T → T → T} {c : List T} {d : T} {g : Nat → T}
    {node l r : Nat} (h : Good f c d g node l r) (hlr : l + 1 < r) :
    Good f c d g (2 * node + 1) ((l + r) / 2) r := fun m a b hr =>
  h m a b (reachAt_trans (ReachAt.right (ReachAt.refl node l r) hlr) hr)

theorem good_self_leaf {f : T → T → T} {c : List T} {d : T} {g : Nat → T}
    {node l r : Nat} (h : Good f c d g node l r) (hlr : l + 1 = r) :
    c.getD node d = g l :=
  (h node l r (ReachAt.refl node l r)).1 hlr

theorem good_self_internal {f : T → T → T} {c : List T} {d : T} {g : Nat → T}
    {node l r : Nat} (h : Good f c d g node l r) (hlr : l + 1 < r) :
    c.getD node d = f (c.getD (2 * node) d) (c.getD (2 * node + 1) d) :=
  (h node l r (ReachAt.refl node l r)).2 hlr

theorem good_of_parts {f : T → T → T} {c : List T} {d : T} {g : Nat → T}
    {node l r : Nat} (hlr : l + 1 < r)
    (hL : Good f c d g (2 * node) l ((l + r) / 2))
    (hR : Good f c d g (2 * node + 1) ((l + r) / 2) r)
    (hself : LocalEq f c d g node l r) :
    Good f c d g node l r := by
  intro m a b hr
  rcases reachAt_inv hr with ⟨hm, ha, hb⟩ | ⟨_, hside⟩
  · subst hm; subst ha; subst hb; exact hself
  · rcases hside with h1 | h1
    · exact hL m a b h1
    · exact hR m a b h1

theorem good_ext {f : T → T → T} {c c' : List T} {d : T} {g : Nat → T}
    {node l r : Nat} (hagree : ∀ m, Desc node m → c'.getD m d = c.getD m d)
    (h : Good f c d g node l r) : Good f c' d g node l r := by
  intro m a b hr
  have hd : Desc node m := reachAt_desc hr
  obtain ⟨h1, h2⟩ := h m a b hr
  constructor
  · intro hab
    rw [hagree m hd]
    exact h1 hab
  · intro hab
    rw [hagree m hd, hagree (2 * m) (desc_child_left hd),
      hagree (2 * m + 1) (desc_child_right hd)]
    exact h2 hab

theorem good_congr_g {f : T → T → T} {c : List T} {d : T} {g g' : Nat → T}
    {node l r : Nat} (hlr : l < r)
    (hagree : ∀ j, l ≤ j → j < r → g j = g' j)
    (h : Good f c d g node l r) : Good f c d g' node l r := by
  intro m a b hr
  obtain ⟨hla, hbr, hab⟩ := reachAt_bounds hr hlr
  obtain ⟨h1, h2⟩ := h m a b hr
  constructor
  · intro hab1
    rw [← hagree a hla (by omega)]
    exact h1 hab1
  · exact h2

theorem good_val {f : T → T → T} {c : List T} {d : T} {g : Nat → T}
    (hassoc : ∀ a b c, f (f a b) c = f a (f b c)) :
    ∀ s node l r, r - l ≤ s → l < r → Good f c d g node l r →
      c.getD node d = foldRange f g l r := by
  intro s
  induction s with
  | zero =>
    intro node l r h1 h2 _
    omega
  | succ s ih =>
    intro node l r h1 h2 hg
    by_cases hleaf : l + 1 = r
    · rw [good_self_leaf hg hleaf, ← hleaf, foldRange_one]
    · have hint : l + 1 < r := by omega
      have hmid1 : l < (l + r) / 2 := by omega
      have hmid2 : (l + r) / 2 < r := by omega
      rw [good_self_internal hg hint,
        ih (2 * node) l ((l + r) / 2) (by omega) hmid1 (good_child_left hg hint),
        ih (2 * node + 1) ((l + r) / 2) r (by omega) hmid2 (good_child_right hg hint),
        foldRange_split f hassoc g hmid1 hmid2]

theorem good_replicate {f : T → T → T} (d0 d : T) {L node l r p : Nat}
    (hok : NodeOk L node l r p) (hd : f d0 d0 = d0) :
    Good f (List.replicate L d0) d (fun _ => d0) node l r := by
  intro m a b hr
  obtain ⟨q, hq⟩ := reachAt_nodeOk hr hok
  constructor
  · intro _
    exact getD_replicate L m d0 d hq.2.2.2.2.2
  · intro hab
    have hl := nodeOk_left hq hab
    have hr2 := nodeOk_right hq hab
    rw [getD_replicate L m d0 d hq.2.2.2.2.2,
      getD_replicate L (2 * m) d0 d hl.2.2.2.2.2,
      getD_replicate L (2 * m + 1) d0 d hr2.2.2.2.2.2, hd]

end SegTree

/-! ## Correctness of `_get` -/

namespace SegTree

theorem two_mul_or_one (n : Nat) : 2 * n ||| 1 = 2 * n + 1 := by
  have h : 2 ^ 1 * n + 1 = 2 ^ 1 * n ||| 1 :=
    Nat.mul_add_lt_is_or (by norm_num) n
  calc 2 * n ||| 1 = 2 ^ 1 * n ||| 1 := by norm_num
    _ = 2 ^ 1 * n + 1 := h.symm
    _ = 2 * n + 1 := by norm_num

theorem isSome_get?_of_lt {l : List T} {n : Nat} (h : n < l.length) :
    (l.get? n).isSome := by
  rw [Option.isSome_iff_ne_none]
  intro hnone
  rw [List.get?_eq_none] at hnone
  omega

theorem _get_isSome (t : SegTree T) :
    ∀ fuel node l r s e p, r - l ≤ fuel →
      NodeOk t.container.length node l r p →
      max l s < min r e →
      (t._get fuel node l r s e).isSome := by
  intro fuel
  induction fuel with
  | zero =>
    intro node l r s e p h1 hok _
    have := hok.2.2.2.1
    omega
  | succ fz ih =>
    intro node l r s e p h1 hok hov
    have hlr : l < r := hok.2.2.2.1
    simp only [_get, shiftr_one, shiftl_one, two_mul_or_one]
    by_cases hcov : s ≤ l ∧ r ≤ e
    · rw [if_pos hcov]
      exact isSome_get?_of_lt hok.2.2.2.2.2
    · rw [if_neg hcov]
      have hint : l + 1 < r := by omega
      by_cases he : e ≤ (l + r) / 2
      · rw [if_pos he]
        exact ih (2 * node) l ((l + r) / 2) s e (2 * p) (by omega)
          (nodeOk_left hok hint) (by omega)
      · rw [if_neg he]
        by_cases hs : (l + r) / 2 ≤ s
        · rw [if_pos hs]
          exact ih (2 * node + 1) ((l + r) / 2) r s e (2 * p) (by omega)
            (nodeOk_right hok hint) (by omega)
        · rw [if_neg hs]
          obtain ⟨a, ha⟩ := Option.isSome_iff_exists.mp
            (ih (2 * node) l ((l + r) / 2) s e (2 * p) (by omega)
              (nodeOk_left hok hint) (by omega))
          obtain ⟨b, hb⟩ := Option.isSome_iff_exists.mp
            (ih (2 * node + 1) ((l + r) / 2) r s e (2 * p) (by omega)
              (nodeOk_right hok hint) (by omega))
          rw [ha, hb]
          rfl

theorem _get_correct (t : SegTree T) (d : T) (g : Nat → T)
    (hassoc : ∀ a b c, t.func (t.func a b) c = t.func a (t.func b c)) :
    ∀ fuel node l r s e p, r - l ≤ fuel →
      NodeOk t.container.length node l r p →
      Good t.func t.container d g node l r →
      max l s < min r e →
      t._get fuel node l r s e =
        some (foldRange t.func g (max l s) (min r e)) := by
  intro fuel
  induction fuel with
  | zero =>
    intro node l r s e p h1 hok _ _
    have := hok.2.2.2.1
    omega
  | succ fz ih =>
    intro node l r s e p h1 hok hg hov
    have hlr : l < r := hok.2.2.2.1
    simp only [_get, shiftr_one, shiftl_one, two_mul_or_one]
    by_cases hcov : s ≤ l ∧ r ≤ e
    · have hmax : max l s = l := by omega
      have hmin : min r e = r := by omega
      rw [if_pos hcov, getSlot,
        get?_eq_some_getD t.container node d hok.2.2.2.2.2,
        good_val hassoc (r - l) node l r le_rfl hlr hg, hmax, hmin]
    · rw [if_neg hcov]
      have hint : l + 1 < r := by omega
      by_cases he : e ≤ (l + r) / 2
      · have hmin : min ((l + r) / 2) e = min r e := by omega
        rw [if_pos he,
          ih (2 * node) l ((l + r) / 2) s e (2 * p) (by omega)
            (nodeOk_left hok hint) (good_child_left hg hint) (by omega), hmin]
      · rw [if_neg he]
        by_cases hs : (l + r) / 2 ≤ s
        · have hmax : max ((l + r) / 2) s = max l s := by omega
          rw [if_pos hs,
            ih (2 * node + 1) ((l + r) / 2) r s e (2 * p) (by omega)
              (nodeOk_right hok hint) (good_child_right hg hint) (by omega), hmax]
        · have h3 : max l s < (l + r) / 2 := by omega
          have h4 : (l + r) / 2 < min r e := by omega
          rw [if_neg hs,
            ih (2 * node) l ((l + r) / 2) s e (2 * p) (by omega)
              (nodeOk_left hok hint) (good_child_left hg hint) (by omega),
            ih (2 * node + 1) ((l + r) / 2) r s e (2 * p) (by omega)
              (nodeOk_right hok hint) (good_child_right hg hint) (by omega)]
          have h1 : min ((l + r) / 2) e = (l + r) / 2 := by omega
          have h2 : max ((l + r) / 2) s = (l + r) / 2 := by omega
          rw [h1, h2, foldRange_split t.func hassoc g h3 h4]
          rfl

end SegTree

/-! ## Correctness of `_set` -/

namespace SegTree

theorem leafIdx_ge : ∀ fuel node l r i, node ≤ leafIdx fuel node l r i := by
  intro fuel
  induction fuel with
  | zero =>
    intro node l r i
    simp [leafIdx]
  | succ fz ih =>
    intro node l r i
    simp only [leafIdx, shiftr_one, shiftl_one, two_mul_or_one]
    by_cases h : l + 1 = r
    · rw [if_pos h]
    · rw [if_neg h]
      by_cases h2 : i < (l + r) / 2
      · rw [if_pos h2]
        exact le_trans (by omega) (ih (2 * node) l ((l + r) / 2) i)
      · rw [if_neg h2]
        exact le_trans (by omega) (ih (2 * node + 1) ((l + r) / 2) r i)

theorem _set_spec (t : SegTree T) (value d : T) :
    ∀ fuel node l r i p, r - l ≤ fuel →
      NodeOk t.container.length node l r p →
      l ≤ i → i < r →
      ∃ t', t._set fuel node l r i value = some t' ∧
        t'.func = t.func ∧
        t'.container.length = t.container.length ∧
        t'.container.getD (leafIdx fuel node l r i) d = value ∧
        (∀ m, ¬ Desc node m → t'.container.getD m d = t.container.getD m d) := by
  intro fuel
  induction fuel with
  | zero =>
    intro node l r i p h1 hok _ _
    have := hok.2.2.2.1
    omega
  | succ fz ih =>
    intro node l r i p h1 hok hli hir
    have hnode1 : 1 ≤ node := by
      have := hok.1
      have := hok.2.1
      omega
    have hnodeL : node < t.container.length := hok.2.2.2.2.2
    simp only [_set, leafIdx, shiftr_one, shiftl_one, two_mul_or_one]
    by_cases hleaf : l + 1 = r
    · rw [if_pos hleaf, if_pos hleaf, setSlot, if_pos hnodeL]
      refine ⟨_, rfl, rfl, by simp, ?_, ?_⟩
      · exact getD_set_self t.container node value d hnodeL
      · intro m hm
        have hne : node ≠ m := fun h => hm (h ▸ desc_self node)
        exact getD_set_ne t.container node m value d hne
    · rw [if_neg hleaf, if_neg hleaf]
      have hint : l + 1 < r := by
        have := hok.2.2.2.1
        omega
      have hokL := nodeOk_left hok hint
      have hokR := nodeOk_right hok hint
      by_cases him : i < (l + r) / 2
      · obtain ⟨t1, ht1, hfunc1, hlen1, hleaf1, hframe1⟩ :=
          ih (2 * node) l ((l + r) / 2) i (2 * p) (by omega) hokL hli him
        have ha : t1.getSlot (2 * node) =
            some (t1.container.getD (2 * node) d) :=
          get?_eq_some_getD _ _ _ (by rw [hlen1]; exact hokL.2.2.2.2.2)
        have hb : t1.getSlot (2 * node + 1) =
            some (t1.container.getD (2 * node + 1) d) :=
          get?_eq_some_getD _ _ _ (by rw [hlen1]; exact hokR.2.2.2.2.2)
        rw [if_pos him, if_pos him]
        simp only [ht1, ha, hb, Option.bind_eq_bind', Option.some_bind]
        rw [setSlot, if_pos (show node < t1.container.length by rw [hlen1]; exact hnodeL)]
        have hleafge : 2 * node ≤ leafIdx fz (2 * node) l ((l + r) / 2) i :=
          leafIdx_ge fz (2 * node) l ((l + r) / 2) i
        refine ⟨_, rfl, hfunc1, by simp [hlen1], ?_, ?_⟩
        · rw [getD_set_ne _ _ _ _ _ (by omega)]
          exact hleaf1
        · intro m hm
          have hne : node ≠ m := fun h => hm (h ▸ desc_self node)
          rw [getD_set_ne _ _ _ _ _ hne]
          exact hframe1 m (fun h => hm (desc_of_desc_left h))
      · obtain ⟨t1, ht1, hfunc1, hlen1, hleaf1, hframe1⟩ :=
          ih (2 * node + 1) ((l + r) / 2) r i (2 * p) (by omega) hokR
            (by omega) hir
        have ha : t1.getSlot (2 * node) =
            some (t1.container.getD (2 * node) d) :=
          get?_eq_some_getD _ _ _ (by rw [hlen1]; exact hokL.2.2.2.2.2)
        have hb : t1.getSlot (2 * node + 1) =
            some (t1.container.getD (2 * node + 1) d) :=
          get?_eq_some_getD _ _ _ (by rw [hlen1]; exact hokR.2.2.2.2.2)
        rw [if_neg him, if_neg him]
        simp only [ht1, ha, hb, Option.bind_eq_bind', Option.some_bind]
        rw [setSlot, if_pos (show node < t1.container.length by rw [hlen1]; exact hnodeL)]
        have hleafge : 2 * node + 1 ≤ leafIdx fz (2 * node + 1) ((l + r) / 2) r i :=
          leafIdx_ge fz (2 * node + 1) ((l + r) / 2) r i
        refine ⟨_, rfl, hfunc1, by simp [hlen1], ?_, ?_⟩
        · rw [getD_set_ne _ _ _ _ _ (by omega)]
          exact hleaf1
        · intro m hm
          have hne : node ≠ m := fun h => hm (h ▸ desc_self node)
          rw [getD_set_ne _ _ _ _ _ hne]
          exact hframe1 m (fun h => hm (desc_of_desc_right h))

end SegTree

namespace SegTree

theorem _set_good (t : SegTree T) (value d : T) (g : Nat → T) :
    ∀ fuel t' node l r i p, r - l ≤ fuel →
      NodeOk t.container.length node l r p →
      l ≤ i → i < r →
      Good t.func t.container d g node l r →
      t._set fuel node l r i value = some t' →
      Good t.func t'.container d (Function.update g i value) node l r := by
  intro fuel
  induction fuel with
  | zero =>
    intro t' node l r i p h1 hok _ _ _ hset
    simp [_set] at hset
  | succ fz ih =>
    intro t' node l r i p h1 hok hli hir hg hset
    have hnode1 : 1 ≤ node := by
      have := hok.1
      have := hok.2.1
      omega
    have hnodeL : node < t.container.length := hok.2.2.2.2.2
    simp only [_set, shiftr_one, shiftl_one, two_mul_or_one] at hset
    by_cases hleaf : l + 1 = r
    · rw [if_pos hleaf, setSlot, if_pos hnodeL] at hset
      have ht' := Option.some.inj hset
      subst ht'
      intro m a b hr
      rcases reachAt_inv hr with ⟨hm, ha2, hb2⟩ | ⟨hbad, _⟩
      · rw [hm, ha2, hb2]
        constructor
        · intro _
          have hil : i = l := by omega
          rw [getD_set_self t.container node value d hnodeL, hil,
            Function.update_same]
        · intro hab
          omega
      · omega
    · rw [if_neg hleaf] at hset
      have hint : l + 1 < r := by
        have := hok.2.2.2.1
        omega
      have hokL := nodeOk_left hok hint
      have hokR := nodeOk_right hok hint
      by_cases him : i < (l + r) / 2
      · rw [if_pos him] at hset
        obtain ⟨t1, ht1, hfunc1, hlen1, _, hframe1⟩ :=
          _set_spec t value d fz (2 * node) l ((l + r) / 2) i (2 * p)
            (by omega) hokL hli him
        have ha : t1.getSlot (2 * node) =
            some (t1.container.getD (2 * node) d) :=
          get?_eq_some_getD _ _ _ (by rw [hlen1]; exact hokL.2.2.2.2.2)
        have hb : t1.getSlot (2 * node + 1) =
            some (t1.container.getD (2 * node + 1) d) :=
          get?_eq_some_getD _ _ _ (by rw [hlen1]; exact hokR.2.2.2.2.2)
        simp only [ht1, ha, hb, Option.bind_eq_bind', Option.some_bind] at hset
        rw [setSlot,
          if_pos (show node < t1.container.length by rw [hlen1]; exact hnodeL)]
          at hset
        have ht' := Option.some.inj hset
        subst ht'
        have hGoodL1 : Good t.func t1.container d (Function.update g i value)
            (2 * node) l ((l + r) / 2) :=
          ih t1 (2 * node) l ((l + r) / 2) i (2 * p) (by omega) hokL hli him
            (good_child_left hg hint) ht1
        have hGoodR0 : Good t.func t1.container d g (2 * node + 1) ((l + r) / 2) r :=
          good_ext
            (fun m hm => hframe1 m
              (fun h2 => desc_sibling_disjoint (by omega) h2 hm))
            (good_child_right hg hint)
        have hGoodR1 : Good t.func t1.container d (Function.update g i value)
            (2 * node + 1) ((l + r) / 2) r :=
          good_congr_g (by omega)
            (fun j hj1 _ => (Function.update_noteq (by omega) value g).symm)
            hGoodR0
        refine good_of_parts hint ?_ ?_ ?_
        · exact good_ext
            (fun m hm =>
              getD_set_ne _ _ _ _ _ (show node ≠ m by have := desc_le hm; omega))
            hGoodL1
        · exact good_ext
            (fun m hm =>
              getD_set_ne _ _ _ _ _ (show node ≠ m by have := desc_le hm; omega))
            hGoodR1
        · constructor
          · intro hab
            omega
          · intro _
            rw [getD_set_self _ _ _ _
                (show node < t1.container.length by rw [hlen1]; exact hnodeL),
              getD_set_ne _ _ _ _ _ (show node ≠ 2 * node by omega),
              getD_set_ne _ _ _ _ _ (show node ≠ 2 * node + 1 by omega), hfunc1]
      · rw [if_neg him] at hset
        obtain ⟨t1, ht1, hfunc1, hlen1, _, hframe1⟩ :=
          _set_spec t value d fz (2 * node + 1) ((l + r) / 2) r i (2 * p)
            (by omega) hokR (by omega) hir
        have ha : t1.getSlot (2 * node) =
            some (t1.container.getD (2 * node) d) :=
          get?_eq_some_getD _ _ _ (by rw [hlen1]; exact hokL.2.2.2.2.2)
        have hb : t1.getSlot (2 * node + 1) =
            some (t1.container.getD (2 * node + 1) d) :=
          get?_eq_some_getD _ _ _ (by rw [hlen1]; exact hokR.2.2.2.2.2)
        simp only [ht1, ha, hb, Option.bind_eq_bind', Option.some_bind] at hset
        rw [setSlot,
          if_pos (show node < t1.container.length by rw [hlen1]; exact hnodeL)]
          at hset
        have ht' := Option.some.inj hset
        subst ht'
        have hGoodR1 : Good t.func t1.container d (Function.update g i value)
            (2 * node + 1) ((l + r) / 2) r :=
          ih t1 (2 * node + 1) ((l + r) / 2) r i (2 * p) (by omega) hokR
            (by omega) hir (good_child_right hg hint) ht1
        have hGoodL0 : Good t.func t1.container d g (2 * node) l ((l + r) / 2) :=
          good_ext
            (fun m hm => hframe1 m
              (fun h2 => desc_sibling_disjoint (by omega) hm h2))
            (good_child_left hg hint)
        have hGoodL1 : Good t.func t1.container d (Function.update g i value)
            (2 * node) l ((l + r) / 2) :=
          good_congr_g (by omega)
            (fun j _ hj2 => (Function.update_noteq (by omega) value g).symm)
            hGoodL0
        refine good_of_parts hint ?_ ?_ ?_
        · exact good_ext
            (fun m hm =>
              getD_set_ne _ _ _ _ _ (show node ≠ m by have := desc_le hm; omega))
            hGoodL1
        · exact good_ext
            (fun m hm =>
              getD_set_ne _ _ _ _ _ (show node ≠ m by have := desc_le hm; omega))
            hGoodR1
        · constructor
          · intro hab
            omega
          · intro _
            rw [getD_set_self _ _ _ _
                (show node < t1.container.length by rw [hlen1]; exact hnodeL),
              getD_set_ne _ _ _ _ _ (show node ≠ 2 * node by omega),
              getD_set_ne _ _ _ _ _ (show node ≠ 2 * node + 1 by omega), hfunc1]

end SegTree

/-! ## Correctness of `apply_vec` and `from_vec` -/

namespace SegTree

theorem apply_vec_spec (vec : List T) (d : T) :
    ∀ fuel (t : SegTree T) node l r p, r - l ≤ fuel →
      NodeOk t.container.length node l r p →
      r ≤ vec.length →
      ∃ t', t.apply_vec fuel node l r vec = some t' ∧
        t'.func = t.func ∧
        t'.container.length = t.container.length ∧
        Good t.func t'.container d (fun j => vec.getD j d) node l r ∧
        (∀ m, ¬ Desc node m → t'.container.getD m d = t.container.getD m d) := by
  intro fuel
  induction fuel with
  | zero =>
    intro t node l r p h1 hok _
    have := hok.2.2.2.1
    omega
  | succ fz ih =>
    intro t node l r p h1 hok hrvec
    have hnode1 : 1 ≤ node := by
      have := hok.1
      have := hok.2.1
      omega
    have hnodeL : node < t.container.length := hok.2.2.2.2.2
    have hlr : l < r := hok.2.2.2.1
    simp only [apply_vec, shiftr_one, shiftl_one, two_mul_or_one]
    by_cases hleaf : l + 1 = r
    · rw [if_pos hleaf]
      have hvl : vec.get? l = some (vec.getD l d) :=
        get?_eq_some_getD _ _ _ (by omega)
      simp only [hvl, Option.bind_eq_bind', Option.some_bind]
      rw [setSlot, if_pos hnodeL]
      refine ⟨_, rfl, rfl, by simp, ?_, ?_⟩
      · intro m a b hr
        rcases reachAt_inv hr with ⟨hm, ha2, hb2⟩ | ⟨hbad, _⟩
        · rw [hm, ha2, hb2]
          constructor
          · intro _
            exact getD_set_self t.container node (vec.getD l d) d hnodeL
          · intro hab
            omega
        · omega
      · intro m hm
        exact getD_set_ne _ _ _ _ _ (fun h => hm (h ▸ desc_self node))
    · rw [if_neg hleaf]
      have hint : l + 1 < r := by omega
      have hokL := nodeOk_left hok hint
      have hokR := nodeOk_right hok hint
      obtain ⟨t1, ht1, hfunc1, hlen1, hgood1, hframe1⟩ :=
        ih t (2 * node) l ((l + r) / 2) (2 * p) (by omega) hokL (by omega)
      obtain ⟨t2, ht2, hfunc2, hlen2, hgood2, hframe2⟩ :=
        ih t1 (2 * node + 1) ((l + r) / 2) r (2 * p) (by omega)
          (by rw [hlen1]; exact hokR) hrvec
      rw [hfunc1] at hgood2
      have hha : t2.getSlot (2 * node) =
          some (t2.container.getD (2 * node) d) :=
        get?_eq_some_getD _ _ _ (by rw [hlen2, hlen1]; exact hokL.2.2.2.2.2)
      have hhb : t2.getSlot (2 * node + 1) =
          some (t2.container.getD (2 * node + 1) d) :=
        get?_eq_some_getD _ _ _ (by rw [hlen2, hlen1]; exact hokR.2.2.2.2.2)
      simp only [ht1, ht2, hha, hhb, Option.bind_eq_bind', Option.some_bind]
      rw [setSlot,
        if_pos (show node < t2.container.length by rw [hlen2, hlen1]; exact hnodeL)]
      refine ⟨_, rfl, ?_, ?_, ?_, ?_⟩
      · exact hfunc2.trans hfunc1
      · simp [hlen2, hlen1]
      · refine good_of_parts hint ?_ ?_ ?_
        · have hg1t2 : Good t.func t2.container d (fun j => vec.getD j d)
              (2 * node) l ((l + r) / 2) :=
            good_ext
              (fun m hm => hframe2 m
                (fun h2 => desc_sibling_disjoint (by omega) hm h2))
              hgood1
          exact good_ext
            (fun m hm =>
              getD_set_ne _ _ _ _ _ (show node ≠ m by have := desc_le hm; omega))
            hg1t2
        · exact good_ext
            (fun m hm =>
              getD_set_ne _ _ _ _ _ (show node ≠ m by have := desc_le hm; omega))
            hgood2
        · constructor
          · intro hab
            omega
          · intro _
            rw [getD_set_self _ _ _ _
                (show node < t2.container.length by rw [hlen2, hlen1]; exact hnodeL),
              getD_set_ne _ _ _ _ _ (show node ≠ 2 * node by omega),
              getD_set_ne _ _ _ _ _ (show node ≠ 2 * node + 1 by omega),
              hfunc2, hfunc1]
      · intro m hm
        rw [getD_set_ne _ _ _ _ _
            (show node ≠ m from fun h => hm (h ▸ desc_self node)),
          hframe2 m (fun h => hm (desc_of_desc_right h)),
          hframe1 m (fun h => hm (desc_of_desc_left h))]

theorem from_vec_spec (vec : List T) (f : T → T → T) (d : T) (hvec : vec ≠ []) :
    ∃ t, from_vec vec f = some t ∧ t.func = f ∧
      t.container.length = 4 * vec.length ∧ t.len = vec.length ∧
      Good f t.container d (fun j => vec.getD j d) 1 0 vec.length := by
  obtain ⟨v0, vs, rfl⟩ := List.exists_cons_of_ne_nil hvec
  have hlen : (v0 :: vs).length = vs.length + 1 := by simp
  have hpos : 0 < (v0 :: vs).length := by simp
  have hok : NodeOk ((new (v0 :: vs).length v0 f).container.length) 1 0
      ((v0 :: vs).length) 1 := by
    rw [container_length_new]
    exact nodeOk_root hpos le_rfl
  obtain ⟨t, hav, hfunc, hlent, hgood, _⟩ :=
    apply_vec_spec (v0 :: vs) d ((v0 :: vs).length) (new (v0 :: vs).length v0 f)
      1 0 ((v0 :: vs).length) 1 (by omega) hok le_rfl
  refine ⟨t, ?_, ?_, ?_, ?_, ?_⟩
  · simp only [from_vec, len_new]
    exact hav
  · rw [hfunc, func_new]
  · rw [hlent, container_length_new]
  · rw [len_eq, hlent, container_length_new]
    omega
  · rw [← func_new (v0 :: vs).length v0 f]
    exact hgood

end SegTree

/-! ## `_get` reads only slots of its subtree -/

namespace SegTree

theorem getSlot_congr (t t' : SegTree T) (m : Nat) (d : T)
    (hlen : t'.container.length = t.container.length)
    (h : t'.container.getD m d = t.container.getD m d) :
    t'.getSlot m = t.getSlot m :=
  get?_congr_getD t.container t'.container m d hlen h

theorem _get_ext (t t' : SegTree T) (hfunc : t'.func = t.func) :
    ∀ fuel node l r s e,
      (∀ m, Desc node m → t'.getSlot m = t.getSlot m) →
      t'._get fuel node l r s e = t._get fuel node l r s e := by
  intro fuel
  induction fuel with
  | zero =>
    intro node l r s e _
    rfl
  | succ fz ih =>
    intro node l r s e hagree
    simp only [_get, shiftr_one, shiftl_one, two_mul_or_one]
    by_cases hcov : s ≤ l ∧ r ≤ e
    · rw [if_pos hcov, if_pos hcov]
      exact hagree node (desc_self node)
    · rw [if_neg hcov, if_neg hcov]
      have hagL : ∀ m, Desc (2 * node) m → t'.getSlot m = t.getSlot m :=
        fun m hm => hagree m (desc_of_desc_left hm)
      have hagR : ∀ m, Desc (2 * node + 1) m → t'.getSlot m = t.getSlot m :=
        fun m hm => hagree m (desc_of_desc_right hm)
      by_cases he : e ≤ (l + r) / 2
      · rw [if_pos he, if_pos he]
        exact ih (2 * node) l ((l + r) / 2) s e hagL
      · rw [if_neg he, if_neg he]
        by_cases hs : (l + r) / 2 ≤ s
        · rw [if_pos hs, if_pos hs]
          exact ih (2 * node + 1) ((l + r) / 2) r s e hagR
        · rw [if_neg hs, if_neg hs]
          simp only [ih (2 * node) l ((l + r) / 2) s e hagL,
            ih (2 * node + 1) ((l + r) / 2) r s e hagR, hfunc]

end SegTree


/-! ## `set` does not affect `get` on ranges not containing the index -/

namespace SegTree

theorem _set_then_get (t : SegTree T) (value d : T) (i a b : Nat)
    (hnotin : ¬ (a ≤ i ∧ i < b)) :
    ∀ fuel t' node l r p, r - l ≤ fuel →
      NodeOk t.container.length node l r p →
      l ≤ i → i < r →
      t._set fuel node l r i value = some t' →
      ∀ fuel2, t'._get fuel2 node l r a b = t._get fuel2 node l r a b := by
  intro fuel
  induction fuel with
  | zero =>
    intro t' node l r p h1 hok _ _ hset
    simp [_set] at hset
  | succ fz ih =>
    intro t' node l r p h1 hok hli hir hset
    have hnode1 : 1 ≤ node := by
      have := hok.1
      have := hok.2.1
      omega
    have hnodeL : node < t.container.length := hok.2.2.2.2.2
    simp only [_set, shiftr_one, shiftl_one, two_mul_or_one] at hset
    by_cases hleaf : l + 1 = r
    · rw [if_pos hleaf, setSlot, if_pos hnodeL] at hset
      have ht' := Option.some.inj hset
      subst ht'
      intro fuel2
      cases fuel2 with
      | zero => rfl
      | succ f2 =>
        set t2 : SegTree T :=
          ({ t with container := t.container.set node value } : SegTree T) with ht2
        have hfunc2 : t2.func = t.func := by rw [ht2]
        have hlen2 : t2.container.length = t.container.length := by
          rw [ht2]
          simp
        have hag : ∀ m, node ≠ m → t2.getSlot m = t.getSlot m := by
          intro m hm
          refine getSlot_congr t t2 m value hlen2 ?_
          rw [ht2]
          exact getD_set_ne _ _ _ _ _ hm
        have hagL : ∀ m, Desc (2 * node) m → t2.getSlot m = t.getSlot m :=
          fun m hm => hag m (by have := desc_le hm; omega)
        have hagR : ∀ m, Desc (2 * node + 1) m → t2.getSlot m = t.getSlot m :=
          fun m hm => hag m (by have := desc_le hm; omega)
        simp only [_get, shiftr_one, shiftl_one, two_mul_or_one]
        have hcov : ¬ (a ≤ l ∧ r ≤ b) := by omega
        rw [if_neg hcov, if_neg hcov]
        by_cases he : b ≤ (l + r) / 2
        · rw [if_pos he, if_pos he]
          exact _get_ext t t2 hfunc2 f2 (2 * node) l ((l + r) / 2) a b hagL
        · rw [if_neg he, if_neg he]
          by_cases hs2 : (l + r) / 2 ≤ a
          · rw [if_pos hs2, if_pos hs2]
            exact _get_ext t t2 hfunc2 f2 (2 * node + 1) ((l + r) / 2) r a b hagR
          · rw [if_neg hs2, if_neg hs2]
            simp only [_get_ext t t2 hfunc2 f2 (2 * node) l ((l + r) / 2) a b hagL,
              _get_ext t t2 hfunc2 f2 (2 * node + 1) ((l + r) / 2) r a b hagR,
              hfunc2]
    · rw [if_neg hleaf] at hset
      have hint : l + 1 < r := by
        have := hok.2.2.2.1
        omega
      have hokL := nodeOk_left hok hint
      have hokR := nodeOk_right hok hint
      by_cases him : i < (l + r) / 2
      · rw [if_pos him] at hset
        obtain ⟨t1, ht1, hfunc1, hlen1, _, hframe1⟩ :=
          _set_spec t value d fz (2 * node) l ((l + r) / 2) i (2 * p)
            (by omega) hokL hli him
        have hha : t1.getSlot (2 * node) =
            some (t1.container.getD (2 * node) d) :=
          get?_eq_some_getD _ _ _ (by rw [hlen1]; exact hokL.2.2.2.2.2)
        have hhb : t1.getSlot (2 * node + 1) =
            some (t1.container.getD (2 * node + 1) d) :=
          get?_eq_some_getD _ _ _ (by rw [hlen1]; exact hokR.2.2.2.2.2)
        simp only [ht1, hha, hhb, Option.bind_eq_bind', Option.some_bind] at hset
        rw [setSlot,
          if_pos (show node < t1.container.length by rw [hlen1]; exact hnodeL)]
          at hset
        have ht' := Option.some.inj hset
        subst ht'
        intro fuel2
        cases fuel2 with
        | zero => rfl
        | succ f2 =>
          set w : T := t1.func (t1.container.getD (2 * node) d)
            (t1.container.getD (2 * node + 1) d) with hw
          set t2 : SegTree T :=
            ({ t1 with container := t1.container.set node w } : SegTree T) with ht2
          have hfunc2 : t2.func = t.func := by
            rw [ht2]
            exact hfunc1
          have hlen2 : t2.container.length = t1.container.length := by
            rw [ht2]
            simp
          have hagL2 : ∀ m, Desc (2 * node) m → t2.getSlot m = t1.getSlot m := by
            intro m hm
            refine getSlot_congr t1 t2 m d hlen2 ?_
            rw [ht2]
            exact getD_set_ne _ _ _ _ _ (show node ≠ m by have := desc_le hm; omega)
          have hagR2 : ∀ m, Desc (2 * node + 1) m → t2.getSlot m = t.getSlot m := by
            intro m hm
            refine getSlot_congr t t2 m d (by rw [hlen2, hlen1]) ?_
            rw [ht2,
              getD_set_ne _ _ _ _ _ (show node ≠ m by have := desc_le hm; omega)]
            exact hframe1 m (fun h2 => desc_sibling_disjoint (by omega) h2 hm)
          have hGL : t2._get f2 (2 * node) l ((l + r) / 2) a b =
              t._get f2 (2 * node) l ((l + r) / 2) a b := by
            rw [_get_ext t1 t2 (by rw [ht2]) f2 (2 * node) l ((l + r) / 2) a b hagL2]
            exact ih t1 (2 * node) l ((l + r) / 2) (2 * p) (by omega) hokL
              hli him ht1 f2
          have hGR : t2._get f2 (2 * node + 1) ((l + r) / 2) r a b =
              t._get f2 (2 * node + 1) ((l + r) / 2) r a b :=
            _get_ext t t2 hfunc2 f2 (2 * node + 1) ((l + r) / 2) r a b hagR2
          simp only [_get, shiftr_one, shiftl_one, two_mul_or_one]
          have hcov : ¬ (a ≤ l ∧ r ≤ b) := by omega
          rw [if_neg hcov, if_neg hcov]
          by_cases he : b ≤ (l + r) / 2
          · rw [if_pos he, if_pos he]
            exact hGL
          · rw [if_neg he, if_neg he]
            by_cases hs2 : (l + r) / 2 ≤ a
            · rw [if_pos hs2, if_pos hs2]
              exact hGR
            · rw [if_neg hs2, if_neg hs2]
              simp only [hGL, hGR, hfunc2, hfunc1]
      · rw [if_neg him] at hset
        obtain ⟨t1, ht1, hfunc1, hlen1, _, hframe1⟩ :=
          _set_spec t value d fz (2 * node + 1) ((l + r) / 2) r i (2 * p)
            (by omega) hokR (by omega) hir
        have hha : t1.getSlot (2 * node) =
            some (t1.container.getD (2 * node) d) :=
          get?_eq_some_getD _ _ _ (by rw [hlen1]; exact hokL.2.2.2.2.2)
        have hhb : t1.getSlot (2 * node + 1) =
            some (t1.container.getD (2 * node + 1) d) :=
          get?_eq_some_getD _ _ _ (by rw [hlen1]; exact hokR.2.2.2.2.2)
        simp only [ht1, hha, hhb, Option.bind_eq_bind', Option.some_bind] at hset
        rw [setSlot,
          if_pos (show node < t1.container.length by rw [hlen1]; exact hnodeL)]
          at hset
        have ht' := Option.some.inj hset
        subst ht'
        intro fuel2
        cases fuel2 with
        | zero => rfl
        | succ f2 =>
          set w : T := t1.func (t1.container.getD (2 * node) d)
            (t1.container.getD (2 * node + 1) d) with hw
          set t2 : SegTree T :=
            ({ t1 with container := t1.container.set node w } : SegTree T) with ht2
          have hfunc2 : t2.func = t.func := by
            rw [ht2]
            exact hfunc1
          have hlen2 : t2.container.length = t1.container.length := by
            rw [ht2]
            simp
          have hagR2 : ∀ m, Desc (2 * node + 1) m → t2.getSlot m = t1.getSlot m := by
            intro m hm
            refine getSlot_congr t1 t2 m d hlen2 ?_
            rw [ht2]
            exact getD_set_ne _ _ _ _ _ (show node ≠ m by have := desc_le hm; omega)
          have hagL2 : ∀ m, Desc (2 * node) m → t2.getSlot m = t.getSlot m := by
            intro m hm
            refine getSlot_congr t t2 m d (by rw [hlen2, hlen1]) ?_
            rw [ht2,
              getD_set_ne _ _ _ _ _ (show node ≠ m by have := desc_le hm; omega)]
            exact hframe1 m (fun h2 => desc_sibling_disjoint (by omega) hm h2)
          have hGL : t2._get f2 (2 * node) l ((l + r) / 2) a b =
              t._get f2 (2 * node) l ((l + r) / 2) a b :=
            _get_ext t t2 hfunc2 f2 (2 * node) l ((l + r) / 2) a b hagL2
          have hGR : t2._get f2 (2 * node + 1) ((l + r) / 2) r a b =
              t._get f2 (2 * node + 1) ((l + r) / 2) r a b := by
            rw [_get_ext t1 t2 (by rw [ht2]) f2 (2 * node + 1) ((l + r) / 2) r a b hagR2]
            exact ih t1 (2 * node + 1) ((l + r) / 2) r (2 * p) (by omega) hokR
              (by omega) hir ht1 f2
          simp only [_get, shiftr_one, shiftl_one, two_mul_or_one]
          have hcov : ¬ (a ≤ l ∧ r ≤ b) := by omega
          rw [if_neg hcov, if_neg hcov]
          by_cases he : b ≤ (l + r) / 2
          · rw [if_pos he, if_pos he]
            exact hGL
          · rw [if_neg he, if_neg he]
            by_cases hs2 : (l + r) / 2 ≤ a
            · rw [if_pos hs2, if_pos hs2]
              exact hGR
            · rw [if_neg hs2, if_neg hs2]
              simp only [hGL, hGR, hfunc2, hfunc1]

end SegTree

/-! ## Singleton queries: descent to the leaf, no combine calls -/

namespace SegTree

theorem _get_singleton (t : SegTree T) (d : T) :
    ∀ fuel node l r i p, r - l ≤ fuel →
      NodeOk t.container.length node l r p →
      l ≤ i → i < r →
      t._get fuel node l r i (i + 1) =
        some (t.container.getD (leafIdx fuel node l r i) d) := by
  intro fuel
  induction fuel with
  | zero =>
    intro node l r i p h1 hok _ _
    have := hok.2.2.2.1
    omega
  | succ fz ih =>
    intro node l r i p h1 hok hli hir
    simp only [_get, leafIdx, shiftr_one, shiftl_one, two_mul_or_one]
    by_cases hcov : i ≤ l ∧ r ≤ i + 1
    · rw [if_pos hcov, if_pos (show l + 1 = r by omega), getSlot,
        get?_eq_some_getD t.container node d hok.2.2.2.2.2]
    · have hint : l + 1 < r := by
        have := hok.2.2.2.1
        omega
      rw [if_neg hcov, if_neg (show ¬ l + 1 = r by omega)]
      by_cases hmid : i < (l + r) / 2
      · rw [if_pos (show i + 1 ≤ (l + r) / 2 by omega), if_pos hmid]
        exact ih (2 * node) l ((l + r) / 2) i (2 * p) (by omega)
          (nodeOk_left hok hint) hli hmid
      · rw [if_neg (show ¬ i + 1 ≤ (l + r) / 2 by omega),
          if_pos (show (l + r) / 2 ≤ i by omega), if_neg hmid]
        exact ih (2 * node + 1) ((l + r) / 2) r i (2 * p) (by omega)
          (nodeOk_right hok hint) (by omega) hir

theorem _getCnt_singleton (t : SegTree T) (d : T) :
    ∀ fuel node l r i p, r - l ≤ fuel →
      NodeOk t.container.length node l r p →
      l ≤ i → i < r →
      t._getCnt fuel node l r i (i + 1) =
        some (t.container.getD (leafIdx fuel node l r i) d, 0) := by
  intro fuel
  induction fuel with
  | zero =>
    intro node l r i p h1 hok _ _
    have := hok.2.2.2.1
    omega
  | succ fz ih =>
    intro node l r i p h1 hok hli hir
    simp only [_getCnt, leafIdx, shiftr_one, shiftl_one, two_mul_or_one]
    by_cases hcov : i ≤ l ∧ r ≤ i + 1
    · rw [if_pos hcov, if_pos (show l + 1 = r by omega)]
      simp only [getSlot, get?_eq_some_getD t.container node d hok.2.2.2.2.2,
        Option.bind_eq_bind', Option.some_bind]
    · have hint : l + 1 < r := by
        have := hok.2.2.2.1
        omega
      rw [if_neg hcov, if_neg (show ¬ l + 1 = r by omega)]
      by_cases hmid : i < (l + r) / 2
      · rw [if_pos (show i + 1 ≤ (l + r) / 2 by omega), if_pos hmid]
        exact ih (2 * node) l ((l + r) / 2) i (2 * p) (by omega)
          (nodeOk_left hok hint) hli hmid
      · rw [if_neg (show ¬ i + 1 ≤ (l + r) / 2 by omega),
          if_pos (show (l + r) / 2 ≤ i by omega), if_neg hmid]
        exact ih (2 * node + 1) ((l + r) / 2) r i (2 * p) (by omega)
          (nodeOk_right hok hint) (by omega) hir

end SegTree

/-! ## Trees reachable through the public API -/

namespace SegTree

theorem nodeOk_root_len (t : SegTree T) (h : 0 < t.len) :
    NodeOk t.container.length 1 0 t.len 1 := by
  have h4 : 4 * t.len ≤ t.container.length := by
    rw [len_eq]
    omega
  exact nodeOk_root h h4


theorem builds_inv {d : T} {f : T → T → T} {t : SegTree T} {g : Nat → T}
    {n : Nat} (hb : Builds d f t g n) :
    t.func = f ∧ t.container.length = 4 * n ∧ 0 < n ∧
      Good f t.container d g 1 0 n := by
  induction hb with
  | new size dflt f hsize hd =>
    refine ⟨func_new _ _ _, container_length_new _ _ _, hsize, ?_⟩
    have hok : NodeOk (size <<< 2) 1 0 size 1 := by
      rw [shiftl_two]
      exact nodeOk_root hsize le_rfl
    exact good_replicate dflt d hok hd
  | from_vec vec f t hvec h =>
    obtain ⟨t2, h2, hfunc, hlen, _, hgood⟩ := from_vec_spec vec f d hvec
    rw [h] at h2
    have ht2 := Option.some.inj h2
    subst ht2
    exact ⟨hfunc, hlen, List.length_pos.mpr hvec, hgood⟩
  | set f t t' g n i v hb hi h ih =>
    obtain ⟨hfunc, hlen, hn, hgood⟩ := ih
    have htlen : t.len = n := by
      rw [len_eq, hlen]
      omega
    rw [SegTree.set, if_pos (show i < t.len by rw [htlen]; exact hi), htlen] at h
    have hok : NodeOk t.container.length 1 0 n 1 := by
      rw [hlen]
      exact nodeOk_root hn le_rfl
    obtain ⟨t2, hset2, hfunc2, hlen2, _, _⟩ :=
      _set_spec t v d n 1 0 n i 1 le_rfl hok (by omega) hi
    have ht2 : t2 = t' := by
      rw [hset2] at h
      exact Option.some.inj h
    subst ht2
    refine ⟨hfunc2.trans hfunc, hlen2.trans hlen, hn, ?_⟩
    have hg := _set_good t v d g n t2 1 0 n i 1 le_rfl hok (by omega) hi
      (by rw [hfunc]; exact hgood) hset2
    rw [hfunc] at hg
    exact hg

end SegTree

/-! ## Claim theorems -/

namespace SegTree

theorem tree_eq_of_fields {t t' : SegTree T}
    (hc : t'.container = t.container) (hf : t'.func = t.func) : t' = t := by
  cases t' with
  | mk c' f' =>
    cases t with
    | mk c f =>
      change c' = c at hc
      change f' = f at hf
      subst hc
      subst hf
      rfl

/-- C1 counterexample: the claim fails as stated.  `new(3, 1, +)` has logical
elements `1, 1, 1` (the store is just filled with the default), so the naive
left-to-right fold over `[0, 3)` is `3`, but `get(0, 3)` returns the untouched
root slot, which holds `1`: `new` performs no build pass, so with a default
that is not idempotent for `combine` the fold property fails already with an
empty sequence of `set` operations. -/
theorem c1_counterexample :
    ¬ ((SegTree.new 3 1 (fun a b => a + b)).get 0 3 =
      some (SegTree.foldRange (fun a b => a + b) (fun _ => 1) 0 3)) := by
  decide

/-- C1 (amended): for every tree obtained by construction followed by any
sequence of valid `set` operations — where for `new`-construction the default
must additionally satisfy `combine default default = default` (the
counterexample shows the claim is false without this) — and every valid range
`0 ≤ start < end ≤ len`, `get(start, end)` returns the left-to-right fold
under the associative `combine` of the logical elements `start..end`. -/
theorem get_eq_foldRange {d : T} {f : T → T → T} {t : SegTree T} {g : Nat → T}
    {n s e : Nat} (hb : Builds d f t g n)
    (hassoc : ∀ a b c, f (f a b) c = f a (f b c))
    (hs : s < e) (he : e ≤ n) :
    t.get s e = some (foldRange f g s e) := by
  obtain ⟨hfunc, hlen, hn, hgood⟩ := builds_inv hb
  have htlen : t.len = n := by
    rw [len_eq, hlen]
    omega
  rw [get, if_pos ⟨hs, by rw [htlen]; omega⟩, htlen]
  have hok : NodeOk t.container.length 1 0 n 1 := by
    rw [hlen]
    exact nodeOk_root hn le_rfl
  have h := _get_correct t d g (by rw [hfunc]; exact hassoc) n 1 0 n s e 1
    le_rfl hok (by rw [hfunc]; exact hgood) (by omega)
  rw [h]
  have hmax : max 0 s = s := by omega
  have hmin : min n e = e := by omega
  rw [hmax, hmin, hfunc]

/-- C1 witness: `new(2, 0, +)` then `set(0, 5)`; `get(0, 2)` equals the
reference fold of the logical contents `[5, 0]`. -/
theorem c1_witness :
    (⟨[0, 5, 5, 0, 0, 0, 0, 0], fun a b => a + b⟩ : SegTree Nat).get 0 2 =
      some (foldRange (fun a b => a + b)
        (Function.update (fun _ => (0 : Nat)) 0 5) 0 2) :=
  get_eq_foldRange
    (show Builds 0 (fun a b => a + b)
        (⟨[0, 5, 5, 0, 0, 0, 0, 0], fun a b => a + b⟩ : SegTree Nat)
        (Function.update (fun _ => (0 : Nat)) 0 5) 2 from
      Builds.set (fun a b => a + b) (SegTree.new 2 0 (fun a b => a + b))
        (⟨[0, 5, 5, 0, 0, 0, 0, 0], fun a b => a + b⟩ : SegTree Nat)
        (fun _ => 0) 2 0 5
        (Builds.new 2 0 (fun a b => a + b) (by decide) rfl)
        (by decide) rfl)
    (fun a b c => Nat.add_assoc a b c) (by decide) (by decide)

/-- C2 counterexample: on the tree freshly built by `new(3, 1, +)` the root
(slot 1, an internal node covering `[0, 3)`, children at slots 2 and 3 well
inside the 12-slot store) holds `1`, while the combine of its children's
stored values is `1 + 1 = 2`: the internal-node invariant does **not** hold
on a fresh `new` tree as claimed. -/
theorem c2_counterexample :
    (SegTree.new 3 1 (fun a b => a + b)).container.length = 12 ∧
    ¬ ((SegTree.new 3 1 (fun a b => a + b)).container.getD 1 0 =
      (SegTree.new 3 1 (fun a b => a + b)).func
        ((SegTree.new 3 1 (fun a b => a + b)).container.getD 2 0)
        ((SegTree.new 3 1 (fun a b => a + b)).container.getD 3 0)) := by
  constructor
  · decide
  · decide

/-- C2 (amended): for every tree obtained through the API — with
`combine default default = default` required for `new`-construction, as the
counterexample forces — every *reachable* internal node (slot `k` covering
`[l, r)` with `l + 1 < r`, reached by the root descent; unreachable padding
slots of the 4N store never carry the invariant) stores exactly
`combine(slot 2k, slot 2k+1)`; this holds after every `set` and at every
moment in between. -/
theorem internal_node_invariant {d : T} {f : T → T → T} {t : SegTree T}
    {g : Nat → T} {n node l r : Nat} (hb : Builds d f t g n)
    (hr : ReachAt 1 0 n node l r) (hint : l + 1 < r) :
    t.container.getD node d =
      t.func (t.container.getD (2 * node) d)
        (t.container.getD (2 * node + 1) d) := by
  obtain ⟨hfunc, _, _, hgood⟩ := builds_inv hb
  rw [hfunc]
  exact (hgood node l r hr).2 hint

/-- C2 witness: the root of `from_vec([1, 2], +)` stores `3 = 1 + 2`, the
combine of its two children slots. -/
theorem c2_witness :
    (⟨[1, 3, 1, 2, 1, 1, 1, 1], fun a b => a + b⟩ : SegTree Nat).container.getD 1 0 =
      (⟨[1, 3, 1, 2, 1, 1, 1, 1], fun a b => a + b⟩ : SegTree Nat).func
        ((⟨[1, 3, 1, 2, 1, 1, 1, 1], fun a b => a + b⟩ :
          SegTree Nat).container.getD 2 0)
        ((⟨[1, 3, 1, 2, 1, 1, 1, 1], fun a b => a + b⟩ :
          SegTree Nat).container.getD 3 0) :=
  internal_node_invariant
    (show Builds 0 (fun a b => a + b)
        (⟨[1, 3, 1, 2, 1, 1, 1, 1], fun a b => a + b⟩ : SegTree Nat)
        (fun j => List.getD [1, 2] j 0) 2 from
      Builds.from_vec [1, 2] (fun a b => a + b)
        (⟨[1, 3, 1, 2, 1, 1, 1, 1], fun a b => a + b⟩ : SegTree Nat)
        (by decide) rfl)
    (ReachAt.refl 1 0 2) (by decide)

end SegTree

namespace SegTree

/-- C3: for every tree (any backing store whatever), every `i < len()` and
every value `v`, `set(i, v)` succeeds and immediately afterwards the
singleton query `get(i, i+1)` returns `v` (the argument `d` is only the junk
default of the total `List.getD` reads used inside the proof). -/
theorem set_get_roundtrip (t : SegTree T) (d v : T) (i : Nat)
    (hi : i < t.len) :
    ∃ t', t.set i v = some t' ∧ t'.get i (i + 1) = some v := by
  have hok := nodeOk_root_len t (by omega)
  obtain ⟨t', hset, hfunc, hlen, hleafv, _⟩ :=
    _set_spec t v d t.len 1 0 t.len i 1 le_rfl hok (by omega) hi
  refine ⟨t', ?_, ?_⟩
  · rw [SegTree.set, if_pos hi]
    exact hset
  · have htlen' : t'.len = t.len := by
      rw [len_eq, hlen, ← len_eq]
    rw [get, if_pos ⟨by omega, by rw [htlen']; omega⟩, htlen']
    have hok' : NodeOk t'.container.length 1 0 t.len 1 := by
      rw [hlen]
      exact hok
    rw [_get_singleton t' d t.len 1 0 t.len i 1 le_rfl hok' (by omega) hi,
      hleafv]

/-- C3 witness: `new(3, 7, *)`, `set(1, 5)`, then `get(1, 2) = 5`. -/
theorem c3_witness :
    ∃ t', (SegTree.new 3 7 (fun a b => a * b)).set 1 5 = some t' ∧
      t'.get 1 (1 + 1) = some 5 :=
  set_get_roundtrip (SegTree.new 3 7 (fun a b => a * b)) 0 5 1 (by decide)

/-- C4: a `set(i, v)` does not change `get(a, b)` for any range `(a, b)` not
containing `i` — for every tree, whatever its backing store, and with no
assumption on the combining operation (not even associativity). -/
theorem set_preserves_disjoint_get (t t' : SegTree T) (d v : T)
    (i a b : Nat) (hi : i < t.len) (hnotin : ¬ (a ≤ i ∧ i < b))
    (hset : t.set i v = some t') :
    t'.get a b = t.get a b := by
  rw [SegTree.set, if_pos hi] at hset
  have hok := nodeOk_root_len t (by omega)
  have hfr := _set_then_get t v d i a b hnotin t.len t' 1 0 t.len 1 le_rfl hok
    (by omega) hi hset
  obtain ⟨t2, hset2, hfunc2, hlen2, _, _⟩ :=
    _set_spec t v d t.len 1 0 t.len i 1 le_rfl hok (by omega) hi
  have ht2 : t2 = t' := by
    rw [hset2] at hset
    exact Option.some.inj hset
  subst ht2
  have htlen' : t2.len = t.len := by
    rw [len_eq, hlen2, ← len_eq]
  rw [get, get, htlen']
  by_cases hg : a < b ∧ b ≤ t.len
  · rw [if_pos hg, if_pos hg]
    exact hfr t.len
  · rw [if_neg hg, if_neg hg]

/-- C4 witness: on `new(4, 0, +)`, `set(0, 9)` leaves `get(2, 4)` unchanged. -/
theorem c4_witness :
    (⟨[0, 9, 9, 0, 9, 0, 0, 0, 0, 0, 0, 0, 0, 0, 0, 0], fun a b => a + b⟩ :
      SegTree Nat).get 2 4 = (SegTree.new 4 0 (fun a b => a + b)).get 2 4 :=
  set_preserves_disjoint_get (SegTree.new 4 0 (fun a b => a + b))
    (⟨[0, 9, 9, 0, 9, 0, 0, 0, 0, 0, 0, 0, 0, 0, 0, 0], fun a b => a + b⟩ :
      SegTree Nat) 0 9 0 2 4 (by decide) (by decide) rfl

/-- C5: `len()` returns the logical size given at construction — the `size`
of `new` (whose raw backing store has length `4·size`, which `len` does not
return), the sequence length for `from_vec` — and is unchanged by `set`
(`get` takes the tree immutably and cannot change anything). -/
theorem len_spec :
    (∀ (size : Nat) (dflt : T) (f : T → T → T),
      (new size dflt f).len = size ∧
        (new size dflt f).container.length = 4 * size) ∧
    (∀ (vec : List T) (f : T → T → T) (t : SegTree T),
      from_vec vec f = some t → t.len = vec.length) ∧
    (∀ (t t' : SegTree T) (i : Nat) (v : T),
      t.set i v = some t' → t'.len = t.len) := by
  refine ⟨fun size dflt f => ⟨len_new size dflt f, container_length_new size dflt f⟩,
    ?_, ?_⟩
  · intro vec f t h
    match vec with
    | [] => simp [from_vec] at h
    | v0 :: vs =>
      obtain ⟨t2, h2, _, _, hlen2, _⟩ := from_vec_spec (v0 :: vs) f v0 (by simp)
      rw [h] at h2
      have ht2 := Option.some.inj h2
      subst ht2
      exact hlen2
  · intro t t' i v h
    rw [SegTree.set] at h
    by_cases hi : i < t.len
    · rw [if_pos hi] at h
      obtain ⟨t2, hset2, _, hlen2, _, _⟩ :=
        _set_spec t v v t.len 1 0 t.len i 1 le_rfl
          (nodeOk_root_len t (by omega)) (by omega) hi
      rw [hset2] at h
      have ht2 := Option.some.inj h
      subst ht2
      rw [len_eq, hlen2, ← len_eq]
    · rw [if_neg hi] at h
      exact absurd h (by simp)

/-- C5 witness: the length facts at concrete instances, including invariance
under a concrete successful `set`. -/
theorem c5_witness :
    ((⟨[0, 5, 5, 0, 0, 0, 0, 0], fun a b => a + b⟩ : SegTree Nat).len =
      (SegTree.new 2 0 (fun a b => a + b)).len) ∧
    (SegTree.new 2 0 (fun a b => a + b)).len = 2 :=
  ⟨(@len_spec Nat).2.2 (SegTree.new 2 0 (fun a b => a + b))
      (⟨[0, 5, 5, 0, 0, 0, 0, 0], fun a b => a + b⟩ : SegTree Nat) 0 5 rfl,
    ((@len_spec Nat).1 2 0 (fun a b => a + b)).1⟩

/-- C6: every failure mode is a caller precondition violation (modelled by
the debug-assertion guards and the checked accesses): `new` fails iff
`size = 0`; `from_vec` fails iff the sequence is empty; `get` fails iff
`start ≥ end` or `end > len()`; `set` fails iff `index ≥ len()`.  In this
functional embedding a failing operation returns `none` and produces no tree
at all, so it trivially leaves no modified structure behind. -/
theorem failure_iff :
    (∀ (size : Nat) (dflt : T) (f : T → T → T),
      (new? size dflt f).isSome ↔ 0 < size) ∧
    (∀ (vec : List T) (f : T → T → T), (from_vec vec f).isSome ↔ vec ≠ []) ∧
    (∀ (t : SegTree T) (s e : Nat),
      (t.get s e).isSome ↔ s < e ∧ e ≤ t.len) ∧
    (∀ (t : SegTree T) (i : Nat) (v : T),
      (t.set i v).isSome ↔ i < t.len) := by
  refine ⟨?_, ?_, ?_, ?_⟩
  · intro size dflt f
    by_cases h : 0 < size <;> simp [new?, h]
  · intro vec f
    match vec with
    | [] => simp [from_vec]
    | v0 :: vs =>
      obtain ⟨t2, h2, _⟩ := from_vec_spec (v0 :: vs) f v0 (by simp)
      rw [h2]
      simp
  · intro t s e
    rw [get]
    by_cases hg : s < e ∧ e ≤ t.len
    · rw [if_pos hg]
      exact iff_of_true
        (_get_isSome t t.len 1 0 t.len s e 1 le_rfl
          (nodeOk_root_len t (by omega)) (by omega)) hg
    · rw [if_neg hg]
      exact iff_of_false (by simp) hg
  · intro t i v
    rw [SegTree.set]
    by_cases hi : i < t.len
    · rw [if_pos hi]
      obtain ⟨t2, hset2, _⟩ :=
        _set_spec t v v t.len 1 0 t.len i 1 le_rfl
          (nodeOk_root_len t (by omega)) (by omega) hi
      rw [hset2]
      exact iff_of_true (by simp) hi
    · rw [if_neg hi]
      exact iff_of_false (by simp) hi

/-- C6 witness: the four characterisations at concrete instances. -/
theorem c6_witness :
    ((SegTree.new? 0 3 (fun a b => a + b) : Option (SegTree Nat)).isSome ↔
      0 < 0) ∧
    ((SegTree.from_vec [1, 2] (fun a b => a + b)).isSome ↔
      [1, 2] ≠ ([] : List Nat)) ∧
    (((SegTree.new 3 0 (fun a b => a + b)).get 1 4).isSome ↔
      1 < 4 ∧ 4 ≤ (SegTree.new 3 0 (fun a b => a + b)).len) ∧
    (((SegTree.new 3 0 (fun a b => a + b)).set 2 9).isSome ↔
      2 < (SegTree.new 3 0 (fun a b => a + b)).len) :=
  ⟨(@failure_iff Nat).1 0 3 (fun a b => a + b),
    (@failure_iff Nat).2.1 [1, 2] (fun a b => a + b),
    (@failure_iff Nat).2.2.1 (SegTree.new 3 0 (fun a b => a + b)) 1 4,
    (@failure_iff Nat).2.2.2 (SegTree.new 3 0 (fun a b => a + b)) 2 9⟩

end SegTree

namespace SegTree

/-- C7: for every tree and every `i < len()`, the singleton query
`get(i, i+1)` descends to the leaf slot of `i` (`leafIdx`) and returns the
value stored there unchanged, and the instrumented query `getCnt` — which
counts exactly the invocations of the combining operation — performs zero
combine calls. -/
theorem singleton_get_no_combine (t : SegTree T) (d : T) (i : Nat)
    (hi : i < t.len) :
    t.getCnt i (i + 1) =
      some (t.container.getD (leafIdx t.len 1 0 t.len i) d, 0) ∧
    t.get i (i + 1) =
      some (t.container.getD (leafIdx t.len 1 0 t.len i) d) := by
  have hok := nodeOk_root_len t (by omega)
  constructor
  · rw [getCnt, if_pos ⟨by omega, by omega⟩]
    exact _getCnt_singleton t d t.len 1 0 t.len i 1 le_rfl hok (by omega) hi
  · rw [get, if_pos ⟨by omega, by omega⟩]
    exact _get_singleton t d t.len 1 0 t.len i 1 le_rfl hok (by omega) hi

/-- C7 witness: on a concrete store of logical size 1, `get(0, 1)` returns
the leaf value `8` with zero combine invocations. -/
theorem c7_witness :
    (⟨[9, 8, 7, 6], fun a b => a + b⟩ : SegTree Nat).getCnt 0 (0 + 1) =
      some (8, 0) ∧
    (⟨[9, 8, 7, 6], fun a b => a + b⟩ : SegTree Nat).get 0 (0 + 1) = some 8 :=
  singleton_get_no_combine (⟨[9, 8, 7, 6], fun a b => a + b⟩ : SegTree Nat)
    0 0 (by decide)

/-- C8: once its precondition `start < end ≤ len()` holds, `get` is total
(returns a value — in the checked/fuelled embedding a `some` result means no
panic and no divergence), and it is a pure, deterministic function of the
tree state: any tree with the same backing store and the same combining
operation yields the same answer.  `get` takes the tree immutably, so in this
functional embedding it cannot modify the store or the operation at all. -/
theorem get_total_deterministic (t : SegTree T) (s e : Nat)
    (hs : s < e) (he : e ≤ t.len) :
    (∃ v, t.get s e = some v) ∧
    (∀ t' : SegTree T, t'.container = t.container → t'.func = t.func →
      t'.get s e = t.get s e) := by
  constructor
  · have h := _get_isSome t t.len 1 0 t.len s e 1 le_rfl
      (nodeOk_root_len t (by omega)) (by omega)
    rw [get, if_pos ⟨hs, he⟩]
    exact Option.isSome_iff_exists.mp h
  · intro t' hc hf
    rw [tree_eq_of_fields hc hf]

/-- C8 witness: on `from_vec([1, 3, 2, 4], +)` the query `get(1, 3)` returns
a value and is reproducible. -/
theorem c8_witness :
    (∃ v, (⟨[1, 10, 4, 6, 1, 3, 2, 4, 1, 1, 1, 1, 1, 1, 1, 1],
      fun a b => a + b⟩ : SegTree Nat).get 1 3 = some v) ∧
    (∀ t' : SegTree Nat,
      t'.container = (⟨[1, 10, 4, 6, 1, 3, 2, 4, 1, 1, 1, 1, 1, 1, 1, 1],
        fun a b => a + b⟩ : SegTree Nat).container →
      t'.func = (⟨[1, 10, 4, 6, 1, 3, 2, 4, 1, 1, 1, 1, 1, 1, 1, 1],
        fun a b => a + b⟩ : SegTree Nat).func →
      t'.get 1 3 = (⟨[1, 10, 4, 6, 1, 3, 2, 4, 1, 1, 1, 1, 1, 1, 1, 1],
        fun a b => a + b⟩ : SegTree Nat).get 1 3) :=
  get_total_deterministic
    (⟨[1, 10, 4, 6, 1, 3, 2, 4, 1, 1, 1, 1, 1, 1, 1, 1],
      fun a b => a + b⟩ : SegTree Nat) 1 3 (by decide) (by decide)

/-- C9: the backing store is allocated with `4·size` slots, and under the
stated preconditions every operation completes with `some`.  Since every
single store access in this embedding is checked (`none` on any index
`≥ container.length`), a `some` result certifies that the build, query and
update recursions never touch an index at or beyond the allocated `4·size`
(`new` itself performs no reads or writes). -/
theorem no_out_of_bounds_access :
    (∀ (size : Nat) (dflt : T) (f : T → T → T),
      (new size dflt f).container.length = 4 * size) ∧
    (∀ (vec : List T) (f : T → T → T), vec ≠ [] →
      (from_vec vec f).isSome) ∧
    (∀ (t : SegTree T) (s e : Nat), s < e → e ≤ t.len →
      (t.get s e).isSome) ∧
    (∀ (t : SegTree T) (i : Nat) (v : T), i < t.len →
      (t.set i v).isSome) := by
  refine ⟨fun size dflt f => container_length_new size dflt f, ?_, ?_, ?_⟩
  · intro vec f hvec
    match vec with
    | [] => exact absurd rfl hvec
    | v0 :: vs =>
      obtain ⟨t2, h2, _⟩ := from_vec_spec (v0 :: vs) f v0 (by simp)
      rw [h2]
      rfl
  · intro t s e hs he
    rw [get, if_pos ⟨hs, he⟩]
    exact _get_isSome t t.len 1 0 t.len s e 1 le_rfl
      (nodeOk_root_len t (by omega)) (by omega)
  · intro t i v hi
    rw [SegTree.set, if_pos hi]
    obtain ⟨t2, hset2, _⟩ :=
      _set_spec t v v t.len 1 0 t.len i 1 le_rfl
        (nodeOk_root_len t (by omega)) (by omega) hi
    rw [hset2]
    rfl

/-- C9 witness: concrete instances of the allocation size and of successful
(= fully in-bounds) build, query and update. -/
theorem c9_witness :
    (SegTree.new 5 0 (fun a b => a + b)).container.length = 4 * 5 ∧
    (SegTree.from_vec [1, 3, 2, 4] (fun a b => a + b)).isSome ∧
    ((SegTree.new 5 0 (fun a b => a + b)).get 2 5).isSome ∧
    ((SegTree.new 5 0 (fun a b => a + b)).set 4 1).isSome :=
  ⟨(@no_out_of_bounds_access Nat).1 5 0 (fun a b => a + b),
    (@no_out_of_bounds_access Nat).2.1 [1, 3, 2, 4] (fun a b => a + b)
      (by decide),
    (@no_out_of_bounds_access Nat).2.2.1 (SegTree.new 5 0 (fun a b => a + b))
      2 5 (by decide) (by decide),
    (@no_out_of_bounds_access Nat).2.2.2 (SegTree.new 5 0 (fun a b => a + b))
      4 1 (by decide)⟩

end SegTree

namespace SegTree

/-- Supporting divergence lemma for the C10 counterexample: on a node whose
interval `[0, 1)` does not overlap the query `[1, 2)` (even though
`left < right` and `start < end`), `_get` runs out of *any* amount of fuel —
the code recurses forever into the same interval (`mid = left`), so the Rust
original overflows the stack. -/
theorem get_diverges_without_overlap :
    ∀ fuel node,
      SegTree._get (⟨[0, 0, 0, 0], fun a b => a + b⟩ : SegTree Nat)
        fuel node 0 1 1 2 = none := by
  intro fuel
  induction fuel with
  | zero =>
    intro node
    rfl
  | succ fz ih =>
    intro node
    simp only [_get, shiftr_one, shiftl_one, two_mul_or_one]
    rw [if_neg (show ¬ ((1 : Nat) ≤ 0 ∧ 1 ≤ 2) by omega),
      if_neg (show ¬ (2 : Nat) ≤ (0 + 1) / 2 by omega),
      if_pos (show (0 + 1) / 2 ≤ 1 by omega)]
    exact ih (2 * node + 1)

/-- C10 counterexample: the recursion of `_get` does **not** terminate on
every input with `left < right` and `start < end`.  With node interval
`[0, 1)` and query `[1, 2)` (so `left < right`, `start < end`, and the fuel
`5` far exceeds the claimed decreasing measure `right - left = 1`), the
embedded `_get` exhausts its fuel and returns `none`; the supporting lemma
`get_diverges_without_overlap` shows this happens at every fuel, i.e. the
recursion descends forever into the same interval. -/
theorem c10_counterexample :
    SegTree._get (⟨[0, 0, 0, 0], fun a b => a + b⟩ : SegTree Nat)
      5 1 0 1 1 2 = none ∧ (0 : Nat) < 1 ∧ (1 : Nat) < 2 ∧ 1 - 0 ≤ 5 := by
  decide

/-- C10 (amended): `_set` and `apply_vec` terminate (and, all accesses being
checked, succeed) with fuel `right - left` on every node of the live
recursion (`NodeOk`) whose interval satisfies `left < right`, with the index
inside the node interval for `_set` and the interval inside the input
sequence for `apply_vec`; `_get` additionally requires the query range to
*overlap* the node interval (`start < right` and `left < end`) — without the
overlap it diverges, as the counterexample shows.  Through the roots, each
public operation is therefore total under its documented precondition. -/
theorem helpers_terminate (t : SegTree T) (d v : T) (vec : List T) :
    (∀ fuel node l r i p, r - l ≤ fuel →
      NodeOk t.container.length node l r p → l ≤ i → i < r →
      (t._set fuel node l r i v).isSome) ∧
    (∀ fuel node l r s e p, r - l ≤ fuel →
      NodeOk t.container.length node l r p → s < r → l < e → s < e →
      (t._get fuel node l r s e).isSome) ∧
    (∀ fuel node l r p, r - l ≤ fuel →
      NodeOk t.container.length node l r p → r ≤ vec.length →
      (t.apply_vec fuel node l r vec).isSome) := by
  refine ⟨?_, ?_, ?_⟩
  · intro fuel node l r i p h1 hok hli hir
    obtain ⟨t2, h2, _⟩ := _set_spec t v d fuel node l r i p h1 hok hli hir
    rw [h2]
    rfl
  · intro fuel node l r s e p h1 hok hsr hle hse
    have hlr : l < r := hok.2.2.2.1
    exact _get_isSome t fuel node l r s e p h1 hok (by omega)
  · intro fuel node l r p h1 hok hrv
    obtain ⟨t2, h2, _⟩ := apply_vec_spec vec d fuel t node l r p h1 hok hrv
    rw [h2]
    rfl

/-- C10 witness: concrete terminating runs of the three helpers with fuel
equal to the interval length. -/
theorem c10_witness :
    ((⟨[0, 0, 0, 0], fun a b => a + b⟩ : SegTree Nat)._set 1 1 0 1 0 7).isSome ∧
    ((⟨[0, 0, 0, 0], fun a b => a + b⟩ : SegTree Nat)._get 1 1 0 1 0 1).isSome ∧
    ((⟨[0, 0, 0, 0], fun a b => a + b⟩ : SegTree Nat).apply_vec 1 1 0 1
      [5]).isSome :=
  ⟨(helpers_terminate (⟨[0, 0, 0, 0], fun a b => a + b⟩ : SegTree Nat) 0 7
      [5]).1 1 1 0 1 0 1 (by omega)
      ⟨by omega, by omega, by omega, by omega, by decide, by decide⟩
      (by omega) (by omega),
    (helpers_terminate (⟨[0, 0, 0, 0], fun a b => a + b⟩ : SegTree Nat) 0 7
      [5]).2.1 1 1 0 1 0 1 1 (by omega)
      ⟨by omega, by omega, by omega, by omega, by decide, by decide⟩
      (by omega) (by omega) (by omega),
    (helpers_terminate (⟨[0, 0, 0, 0], fun a b => a + b⟩ : SegTree Nat) 0 7
      [5]).2.2 1 1 0 1 1 (by omega)
      ⟨by omega, by omega, by omega, by omega, by decide, by decide⟩
      (by decide)⟩

end SegTree
